import Mathlib

/-!
Verification of the crypto ETL pipeline (`etl.py`) against its specification.

The pipeline's operations are shallowly embedded as Lean functions:

* `fetch_top_50_cryptos` — the tenacity-decorated fetch with retry/backoff;
* `transform_crypto_data` — column selection, dropna, sort, per-id rolling
  mean and pct-change features;
* `validate_data` — the two-tier (blocking/advisory) data-quality check;
* `load_to_postgres` — the delete-then-bulk-insert snapshot replace,
  with an explicit session/transaction model;
* `detect_anomalies` / `forecast_price` — entity filtering and the
  structural behaviour around the (abstracted) fitted models;
* `log_lineage` / `lineage_wrap` / `run_stage` — the lineage and
  failure-notification decorators around each pipeline stage.

Numeric column values are modelled as rationals, timestamps as integers,
and nullable cells as `Option` values (pandas `NaN`/`NaT` is `none`).
External fallible effects (network attempts, the storage backend, model
fits, log-file writes) are injected as explicit parameters so that each
code path of the source is represented.
-/

namespace CryptoETL

/-! ## Source client: fetch_top_50_cryptos under its tenacity decorator

The decorator is `retry(stop=stop_after_attempt(5),
wait=wait_exponential(multiplier=1, min=4, max=10),
retry=retry_if_exception_type(requests.exceptions.RequestException))`.
An attempt outcome is classified by the except-clauses of the function
body: network/transport and HTTP-status errors raise
`requests.exceptions.RequestException`; anything else (payload-shape
errors from the body) is a different exception and is not retried. -/

/-- Outcome of one HTTP fetch attempt. `requestFailure` covers
network/transport errors and `raise_for_status` HTTP errors (all
`requests.exceptions.RequestException`); `shapeFailure` covers any other
exception raised while producing the payload. -/
inductive AttemptResult (α : Type) where
  | ok (v : α)
  | requestFailure (msg : String)
  | shapeFailure (msg : String)
deriving DecidableEq

/-- True exactly when tenacity's `retry_if_exception_type(RequestException)`
predicate accepts the raised exception. -/
def retryable {α : Type} : AttemptResult α → Bool
  | .requestFailure _ => true
  | _ => false

/-- Message carried by a failed attempt (empty for a success). -/
def msgOf {α : Type} : AttemptResult α → String
  | .ok _ => ""
  | .requestFailure m => m
  | .shapeFailure m => m

/-- Overall outcome of the decorated fetch: a value, a non-retryable
exception propagated unchanged, or tenacity's `RetryError` (the spec's
`RetryExhausted`) wrapping the last retryable failure. -/
inductive FetchOutcome (α : Type) where
  | ok (v : α)
  | raised (msg : String)
  | retryExhausted (lastMsg : String)
deriving DecidableEq

/-- tenacity `wait_exponential(multiplier, min, max)` evaluated after the
`k`-th attempt has failed: `max(minW, min(multiplier * 2^k, maxW))`. -/
def waitExponential (multiplier minW maxW k : ℕ) : ℕ :=
  max minW (min (multiplier * 2 ^ k) maxW)

/-- The tenacity retry loop at attempt number `k` with `remaining`
re-attempts still allowed by `stop_after_attempt` (so
`remaining = maxAttempts - k`): run attempt `k`; on success return; on
a non-retryable failure propagate it unchanged; on a retryable failure
sleep and re-attempt if any attempt remains, else raise `RetryError`.
Returns the outcome, the number of the final attempt made, and the
list of waits slept between attempts. -/
def tenacityRun {α : Type} (attempts : ℕ → AttemptResult α) (k remaining : ℕ) :
    FetchOutcome α × ℕ × List ℕ :=
  match attempts k, remaining with
  | .ok v, _ => (.ok v, k, [])
  | .shapeFailure m, _ => (.raised m, k, [])
  | .requestFailure m, 0 => (.retryExhausted m, k, [])
  | .requestFailure _, r + 1 =>
      ((tenacityRun attempts (k + 1) r).1,
       (tenacityRun attempts (k + 1) r).2.1,
       waitExponential 1 4 10 k :: (tenacityRun attempts (k + 1) r).2.2)
termination_by remaining

/-- Embeds the decorated `fetch_top_50_cryptos`: the attempt body is
abstracted as the per-attempt outcome function `attempts` (1-based);
tenacity drives it with `stop_after_attempt(5)` (attempt 1 plus at
most 4 re-attempts) and `wait_exponential(multiplier=1, min=4,
max=10)`. -/
def fetch_top_50_cryptos {α : Type} (attempts : ℕ → AttemptResult α) :
    FetchOutcome α × ℕ × List ℕ :=
  tenacityRun attempts 1 4

/-! ## Lineage recorder: log_lineage and the lineage_logger decorator

`log_lineage` appends one JSON line to `lineage.log` with no
try/except of its own; the file write is modelled by the `writable`
flag (`false` means `open`/`write` raises an `OSError`).  The
`lineage_logger` decorator calls `log_lineage(step, "success")` after a
successful body, and on any exception calls
`log_lineage(step, "error", {...})` and re-raises. -/

/-- One line of `lineage.log`. -/
structure LineageEntry where
  step : String
  status : String
  errMsg : Option String
deriving DecidableEq

/-- Message standing for the `OSError` raised when the lineage log file
cannot be written. -/
def lineageWriteFailure : String := "OSError: could not write lineage.log"

/-- Embeds `log_lineage(step, status, extra)`: append one entry to the
log, or raise if the underlying file write fails (`writable = false`).
The source has no exception handling here. -/
def log_lineage (writable : Bool) (log : List LineageEntry)
    (step status : String) (errMsg : Option String) :
    Except Unit (List LineageEntry) :=
  if writable then .ok (log ++ [⟨step, status, errMsg⟩]) else .error ()

/-- Embeds the `lineage_logger(step)` decorator applied to a stage body
with outcome `body`.  On a successful body the success entry is written
inside the wrapper's `try`, so a write failure lands in the `except`
block, whose own `log_lineage` call raises again and that `OSError`
propagates.  On a failed body the error entry is written in the
`except` block; if that write raises, the `OSError` replaces the
original error.  Returns the stage outcome and the resulting log. -/
def lineage_wrap {α : Type} (writable : Bool) (step : String)
    (log : List LineageEntry) (body : Except String α) :
    Except String α × List LineageEntry :=
  match body with
  | .ok a =>
      match log_lineage writable log step "success" none with
      | .ok log2 => (.ok a, log2)
      | .error _ =>
          match log_lineage writable log step "error" (some lineageWriteFailure) with
          | .ok log2 => (.error lineageWriteFailure, log2)
          | .error _ => (.error lineageWriteFailure, log)
  | .error e =>
      match log_lineage writable log step "error" (some e) with
      | .ok log2 => (.error e, log2)
      | .error _ => (.error lineageWriteFailure, log)

/-! ## Quality validator: validate_data

`validate_data(df)` inspects the DataFrame column-wise.  A column here
is its name, its pandas dtype (abstracted to the three classes the
checks distinguish) and its per-row null mask (`df.isnull()`).  The
null check iterates over the columns the frame actually has; the dtype
check iterates over the fixed `expected_types` dict but is guarded by
`if col in df.columns`.  All issues are aggregated; `max_supply` nulls
are only warned about; a non-empty issue list raises `ValueError`. -/

/-- Abstraction of a pandas dtype, as distinguished by
`pd.api.types.is_object_dtype` and `pd.api.types.is_numeric_dtype`. -/
inductive PDtype where
  | objectD
  | numericD
  | datetimeD
deriving DecidableEq

/-- One DataFrame column: name, dtype and the per-row null mask. -/
structure PColumn where
  name : String
  dtype : PDtype
  isnull : List Bool
deriving DecidableEq

/-- A DataFrame as `validate_data` sees it: an ordered list of columns. -/
structure PFrame where
  cols : List PColumn
deriving DecidableEq

/-- Warning text for nulls in the advisory column. -/
def warnMsg (n : String) : String :=
  "Missing values found in non-critical column: " ++ n

/-- Issue text for nulls in a critical column. -/
def criticalMsg (n : String) : String :=
  "Missing values found in critical column: " ++ n

/-- Issue text for a textual column with a non-object dtype. -/
def textualTypeMsg (n : String) : String :=
  "Column " ++ n ++ " has incorrect type"

/-- Issue text for a numeric column with a non-numeric dtype. -/
def numericTypeMsg (n : String) : String :=
  "Column " ++ n ++ " should be numeric"

/-- The null-value pass over `df.isnull().sum()`: a column with any null
either produces a warning (`max_supply`) or a critical issue.  Returns
(warnings, issues), each in column order. -/
def nullIssues : List PColumn → List String × List String
  | [] => ([], [])
  | c :: cs =>
      if c.isnull.contains true then
        if c.name = "max_supply" then
          (warnMsg c.name :: (nullIssues cs).1, (nullIssues cs).2)
        else
          ((nullIssues cs).1, criticalMsg c.name :: (nullIssues cs).2)
      else nullIssues cs

/-- The `expected_types` dict of `validate_data`, in insertion order;
`true` marks the textual (`object`-dtype) columns, `false` the numeric
ones. -/
def expectedTypes : List (String × Bool) :=
  [("id", true), ("symbol", true), ("name", true), ("price_usd", false),
   ("market_cap", false), ("volume_24h", false), ("high_24h", false),
   ("low_24h", false), ("price_change_24h_pct", false),
   ("circulating_supply", false), ("max_supply", false), ("last_updated", true)]

/-- Column lookup, `df[col]` guarded by `col in df.columns`. -/
def findCol (df : PFrame) (n : String) : Option PColumn :=
  df.cols.find? (fun c => c.name = n)

/-- The dtype pass over a list of expected (name, textual?) entries:
each expected column that is present has its dtype class compared with
the declared one; absent columns are skipped. -/
def typeIssuesOver (df : PFrame) : List (String × Bool) → List String
  | [] => []
  | nt :: ets =>
      match findCol df nt.1 with
      | none => typeIssuesOver df ets
      | some c =>
          if nt.2 then
            if c.dtype = PDtype.objectD then typeIssuesOver df ets
            else textualTypeMsg nt.1 :: typeIssuesOver df ets
          else
            if c.dtype = PDtype.numericD then typeIssuesOver df ets
            else numericTypeMsg nt.1 :: typeIssuesOver df ets

/-- The dtype pass of `validate_data`, driven by `expected_types`. -/
def typeIssues (df : PFrame) : List String := typeIssuesOver df expectedTypes

/-- Embeds `validate_data(df)`: returns the warnings logged and either
success or the aggregated issue list carried by the raised
`ValueError`. -/
def validate_data (df : PFrame) : List String × Except (List String) Unit :=
  let ws := (nullIssues df.cols).1
  let issues := (nullIssues df.cols).2 ++ typeIssues df
  (ws, if issues.isEmpty then .ok () else .error issues)

/-! ## Snapshot store: load_to_postgres

The SQLAlchemy session is modelled by its committed store plus the
staged state of the open transaction.  The source first runs
`session.query(CryptoData).delete()` and **commits it on its own**,
then builds the ORM records, bulk-inserts them and commits again; the
except-clause rolls back whatever transaction is open and re-raises. -/

/-- The persisted AssetRecord row (ORM model `CryptoData`). -/
structure AssetRecord where
  id : String
  symbol : String
  name : String
  price_usd : ℚ
  market_cap : Option ℚ
  volume_24h : Option ℚ
  high_24h : Option ℚ
  low_24h : Option ℚ
  price_change_24h_pct : Option ℚ
  circulating_supply : Option ℚ
  max_supply : Option ℚ
  last_updated : Option String
deriving DecidableEq

/-- One row of the cleaned CSV handed to the loader: the required
fields are non-null, the optional numeric fields are `none` when
absent/NaN. -/
structure LoadRow where
  id : String
  symbol : String
  name : String
  price_usd : ℚ
  market_cap : Option ℚ
  volume_24h : Option ℚ
  high_24h : Option ℚ
  low_24h : Option ℚ
  price_change_24h_pct : Option ℚ
  circulating_supply : Option ℚ
  max_supply : Option ℚ
  last_updated : Option String
deriving DecidableEq

/-- The 1:1 row-to-record mapping in the loader's loop: required fields
are coerced directly, each optional field is null when `pd.isnull`. -/
def toAssetRecord (r : LoadRow) : AssetRecord :=
  ⟨r.id, r.symbol, r.name, r.price_usd, r.market_cap, r.volume_24h,
   r.high_24h, r.low_24h, r.price_change_24h_pct, r.circulating_supply,
   r.max_supply, r.last_updated⟩

/-- The snapshot table, keyed by `id`. -/
abbrev Store := List AssetRecord

/-- A SQLAlchemy session over the store: the durably committed rows and
the staged rows of the open transaction. -/
structure DbSession where
  committed : Store
  staged : Store
deriving DecidableEq

/-- Open a session over the current store. -/
def sessionBegin (s : Store) : DbSession := ⟨s, s⟩

/-- `session.query(CryptoData).delete()`: stage removal of every row. -/
def deleteAll (ss : DbSession) : DbSession := { ss with staged := [] }

/-- `session.bulk_save_objects(records)`: stage the inserts. -/
def bulkSave (rs : Store) (ss : DbSession) : DbSession :=
  { ss with staged := ss.staged ++ rs }

/-- `session.commit()`: make the staged state durable. -/
def sessionCommit (ss : DbSession) : DbSession := ⟨ss.staged, ss.staged⟩

/-- `session.rollback()`: discard the staged state of the open
transaction, keeping what is committed. -/
def sessionRollback (ss : DbSession) : DbSession := ⟨ss.committed, ss.committed⟩

/-- Where the storage backend raises during `load_to_postgres`. -/
inductive LoadFailure where
  | duringDelete
  | duringInsert
  | noFailure
deriving DecidableEq

/-- Embeds `load_to_postgres(df, db_url)`.  The step sequence of the
source: delete all rows, commit; build records, bulk-insert, commit.
A raised exception triggers `session.rollback()` of the open
transaction only, and is re-raised.  Returns the (re-raised) outcome
and the store left behind. -/
def load_to_postgres (df : List LoadRow) (store : Store) :
    LoadFailure → Except String Unit × Store
  | .duringDelete =>
      let s1 := sessionRollback (deleteAll (sessionBegin store))
      (.error "StorageError", s1.committed)
  | .duringInsert =>
      let s1 := sessionCommit (deleteAll (sessionBegin store))
      let s2 := sessionRollback (bulkSave (df.map toAssetRecord) s1)
      (.error "StorageError", s2.committed)
  | .noFailure =>
      let s1 := sessionCommit (deleteAll (sessionBegin store))
      let s2 := sessionCommit (bulkSave (df.map toAssetRecord) s1)
      (.ok (), s2.committed)

/-! ## Pipeline facade: the load stage and its decorators

`CryptoETLPipeline.load` builds the db_url from environment credentials
when none is given; if any credential is missing it logs an error and
plainly returns.  Every stage method is wrapped by
`@slack_notify_on_error` (outermost) and `@lineage_logger(step)`. -/

/-- The `POSTGRES_*` environment credentials; `none` is an unset
variable.  `port` defaults to `"5432"` in the source. -/
structure DbCreds where
  user : Option String
  password : Option String
  host : Option String
  port : String
  db : Option String

/-- The `if not all([user, password, host, port, db])` completeness
check of `CryptoETLPipeline.load`. -/
def credsComplete (c : DbCreds) : Bool :=
  c.user.isSome && c.password.isSome && c.host.isSome && (c.port ≠ "") && c.db.isSome

/-- The db_url assembled from complete credentials. -/
def buildDbUrl (c : DbCreds) : String :=
  "postgresql+psycopg2://" ++ c.user.getD "" ++ ":" ++ c.password.getD ""
    ++ "@" ++ c.host.getD "" ++ ":" ++ c.port ++ "/" ++ c.db.getD ""

/-- Embeds the body of `CryptoETLPipeline.load(csv_path, db_url)`:
with no `db_url` and incomplete credentials it logs an error and
returns `None` (no exception); otherwise it runs `load_to_postgres`.
Returns the outcome and the store left behind. -/
def pipeline_load (rows : List LoadRow) (db_url : Option String) (creds : DbCreds)
    (store : Store) (fail : LoadFailure) : Except String Unit × Store :=
  match db_url with
  | some _ => load_to_postgres rows store fail
  | none =>
      if credsComplete creds then load_to_postgres rows store fail
      else (.ok (), store)

/-- Embeds `notify_slack` + the `slack_notify_on_error` decorator around
a stage whose (lineage-wrapped) outcome is `body`: on an exception the
Slack notification is posted when a webhook URL is configured (a post
failure is swallowed), and the original error is re-raised unchanged.
Returns the outcome and the notifications sent. -/
def slack_notify_wrap {α : Type} (webhook : Option String) (stepName : String)
    (body : Except String α) : Except String α × List String :=
  match body with
  | .ok a => (.ok a, [])
  | .error e =>
      match webhook with
      | some _ => (.error e, ["ETL Pipeline Error in " ++ stepName ++ ": " ++ e])
      | none => (.error e, [])

/-- A full pipeline stage as the scheduler sees it:
`slack_notify_on_error` outside, `lineage_logger(step)` inside, around
the stage body.  Returns the outcome, the lineage log and the
notifications sent. -/
def run_stage {α : Type} (webhook : Option String) (writable : Bool) (step : String)
    (log : List LineageEntry) (body : Except String α) :
    Except String α × List LineageEntry × List String :=
  let inner := lineage_wrap writable step log body
  let outer := slack_notify_wrap webhook step inner.1
  (outer.1, inner.2, outer.2)

/-! ## Feature transformer: transform_crypto_data

The raw provider entries are loosely typed: every field may be absent.
`transform_crypto_data` selects/renames the columns, drops rows missing
`id`/`symbol`/`name`/`price_usd` (`current_price`), parses
`last_updated` with `errors="coerce"` (absent or unparseable values
become `NaT`, modelled as `none`), sorts by `["id", "last_updated"]`
(pandas puts `NaT` last), then computes per-id rolling means and
pct-changes via `groupby("id")`.  On the id-sorted frame the groups are
exactly the maximal runs of equal `id`.  The sort is modelled with
insertion sort — any correct sort realises `sort_values`, whose
tie-order is unspecified. -/

/-- One entry of the provider's raw JSON snapshot, restricted to the
columns the transform selects; numeric values are rationals, the
timestamp is pre-parsed to an integer (`none` = missing/unparseable,
i.e. pandas `NaT`). -/
structure RawEntry where
  id : Option String
  symbol : Option String
  name : Option String
  current_price : Option ℚ
  market_cap : Option ℚ
  total_volume : Option ℚ
  high_24h : Option ℚ
  low_24h : Option ℚ
  price_change_percentage_24h : Option ℚ
  circulating_supply : Option ℚ
  max_supply : Option ℚ
  last_updated : Option Int
deriving DecidableEq

/-- A row after rename + `dropna(subset=["id","symbol","name","price_usd"])`:
the essential fields are present, everything else stays nullable. -/
structure CleanRow where
  id : String
  symbol : String
  name : String
  price_usd : ℚ
  market_cap : Option ℚ
  volume_24h : Option ℚ
  high_24h : Option ℚ
  low_24h : Option ℚ
  price_change_24h_pct : Option ℚ
  circulating_supply : Option ℚ
  max_supply : Option ℚ
  last_updated : Option Int
deriving DecidableEq

/-- The rename + dropna step on one raw entry. -/
def cleanRow (r : RawEntry) : Option CleanRow :=
  match r.id, r.symbol, r.name, r.current_price with
  | some i, some s, some n, some p =>
      some ⟨i, s, n, p, r.market_cap, r.total_volume, r.high_24h, r.low_24h,
            r.price_change_percentage_24h, r.circulating_supply, r.max_supply,
            r.last_updated⟩
  | _, _, _, _ => none

/-- Rename + dropna over the whole snapshot. -/
def cleanRows (raw : List RawEntry) : List CleanRow := raw.filterMap cleanRow

/-- Order on parsed timestamps: `NaT` (`none`) sorts last, as pandas
`sort_values` places missing keys. -/
def luLe : Option Int → Option Int → Prop
  | _, none => True
  | none, some _ => False
  | some x, some y => x ≤ y

instance : DecidableRel luLe := fun a b => by
  cases a <;> cases b <;> simp only [luLe] <;> infer_instance

/-- Lexicographic strict order on character lists by Unicode
codepoint, as pandas compares the id strings when sorting. -/
def lexLt : List Char → List Char → Bool
  | _, [] => false
  | [], _ :: _ => true
  | a :: as, b :: bs =>
      if a.toNat < b.toNat then true
      else if b.toNat < a.toNat then false
      else lexLt as bs

/-- Lexicographic strict order on the id strings. -/
def strLt (a b : String) : Bool := lexLt a.data b.data

/-- The `sort_values(["id", "last_updated"])` key order. -/
def rowLe (a b : CleanRow) : Prop :=
  strLt a.id b.id = true ∨ (a.id = b.id ∧ luLe a.last_updated b.last_updated)

instance : DecidableRel rowLe := fun a b => by
  unfold rowLe; infer_instance

/-- `df.sort_values(["id", "last_updated"])`. -/
def sortRows (rs : List CleanRow) : List CleanRow := List.insertionSort rowLe rs

/-- Maximal runs of equal `id` — on the id-sorted frame these are
exactly the `groupby("id")` groups. -/
def runsBy : List CleanRow → List (List CleanRow)
  | [] => []
  | r :: rs =>
      match runsBy rs with
      | [] => [[r]]
      | [] :: gs => [r] :: gs
      | (s :: g) :: gs =>
          if r.id = s.id then (r :: s :: g) :: gs else [r] :: (s :: g) :: gs

/-- Mean of a window of observations. -/
def windowMean (w : List ℚ) : ℚ := w.sum / (w.length : ℚ)

/-- One step of `rolling(window=7, min_periods=1).mean()`: the carried
window holds the most recent observations, newest first, truncated to
the window size. -/
def rollingStep (window : List ℚ) : List ℚ → List ℚ
  | [] => []
  | p :: ps =>
      windowMean ((p :: window).take 7) :: rollingStep ((p :: window).take 7) ps

/-- The `rolling_avg_7d` column of one group. -/
def rollingColumn (ps : List ℚ) : List ℚ := rollingStep [] ps

/-- Tail of `pct_change() * 100` given the previous observation.
Division by zero is left at the rational default (pandas yields inf). -/
def pctTail (prev : ℚ) : List ℚ → List (Option ℚ)
  | [] => []
  | p :: ps => some ((p / prev - 1) * 100) :: pctTail p ps

/-- The `daily_price_change_pct` column of one group: the first
observation has no predecessor. -/
def pctChangeColumn : List ℚ → List (Option ℚ)
  | [] => []
  | p :: ps => none :: pctTail p ps

/-- A cleaned row with the two derived feature columns. -/
structure TransRow where
  row : CleanRow
  rolling_avg_7d : ℚ
  daily_price_change_pct : Option ℚ
deriving DecidableEq

/-- Zip a group with its two derived columns. -/
def zipFeatures : List CleanRow → List ℚ → List (Option ℚ) → List TransRow
  | r :: rs, q :: qs, c :: cs => ⟨r, q, c⟩ :: zipFeatures rs qs cs
  | _, _, _ => []

/-- The per-group feature computation performed by the two
`groupby("id")` transforms. -/
def featureGroup (g : List CleanRow) : List TransRow :=
  zipFeatures g (rollingColumn (g.map (·.price_usd)))
    (pctChangeColumn (g.map (·.price_usd)))

/-- Embeds `transform_crypto_data(raw_data)`. -/
def transform_crypto_data (raw : List RawEntry) : List TransRow :=
  ((runsBy (sortRows (cleanRows raw))).map featureGroup).flatten

/-- The trailing mean over the up-to-7 most recent of the first `k + 1`
observations — the spec reading of `rolling_avg_7d`. -/
def trailingMean (ps : List ℚ) (k : ℕ) : ℚ :=
  windowMean (((ps.take (k + 1)).reverse).take 7)

/-! ## Analytics: detect_anomalies and forecast_price

Both filter the historical frame by case-insensitive name match, warn
and return `None` when nothing matches, and otherwise sort by
`last_updated` and hand the series to a fitted library model
(IsolationForest / Prophet), which is abstracted as a parameter that
may itself fail.  Prophet's `make_future_dataframe(periods)` keeps
`include_history=True`: it returns the (deduplicated, sorted) history
dates followed by `periods` daily steps beyond the last observed
date, and `predict` scores every one of them. -/

/-- One row of the historical CSV read with `parse_dates=["last_updated"]`. -/
structure HistRow where
  name : String
  price_usd : ℚ
  last_updated : Int
deriving DecidableEq

/-- ASCII lower-casing of one character (str.lower over the slug-style
asset names, which are ASCII). -/
def lowerChar (c : Char) : Char :=
  if 65 ≤ c.toNat ∧ c.toNat ≤ 90 then Char.ofNat (c.toNat + 32) else c

/-- ASCII lower-casing of a name. -/
def lowerStr (s : String) : String := ⟨s.data.map lowerChar⟩

/-- The case-insensitive name match `df["name"].str.lower() == coin_name.lower()`. -/
def nameMatches (r : HistRow) (coin : String) : Bool :=
  lowerStr r.name == lowerStr coin

/-- The `sort_values("last_updated")` order. -/
def dsLe (a b : HistRow) : Prop := a.last_updated ≤ b.last_updated

instance : DecidableRel dsLe := fun a b => by unfold dsLe; infer_instance

instance : IsTrans HistRow dsLe := ⟨fun _ _ _ h1 h2 => le_trans h1 h2⟩

instance : IsTotal HistRow dsLe := ⟨fun a b => Int.le_total _ _⟩

/-- The warning logged when the entity is absent. -/
def noDataMsg (coin : String) : String := "No data found for coin: " ++ coin

/-- The rows matching the queried entity. -/
def coinFilter (df : List HistRow) (coin : String) : List HistRow :=
  df.filter (fun r => nameMatches r coin)

/-- The matching rows sorted by timestamp. -/
def coinSorted (df : List HistRow) (coin : String) : List HistRow :=
  List.insertionSort dsLe (coinFilter df coin)

/-- The fitted history dates: Prophet keeps the sorted, deduplicated
`ds` values of the training frame. -/
def historyDates (df : List HistRow) (coin : String) : List Int :=
  ((coinSorted df coin).map (fun r => r.last_updated)).dedup

/-- The last observed date (`self.history_dates.max()`). -/
def lastDate (df : List HistRow) (coin : String) : Int :=
  (historyDates df coin).maximum.unbot' 0

/-- The `periods` daily steps past the last observed date. -/
def futureDates (df : List HistRow) (coin : String) (periods : ℕ) : List Int :=
  (List.range periods).map (fun (k : ℕ) => lastDate df coin + ((k : Int) + 1))

/-- Pair the sorted rows with the model labels (the assignment
`coin_df["anomaly"] = model.fit_predict(X)`). -/
def zipLabels : List HistRow → List Int → List (Int × ℚ × Int)
  | r :: rs, l :: ls => (r.last_updated, r.price_usd, l) :: zipLabels rs ls
  | _, _ => []

/-- Embeds `detect_anomalies(df, coin_name, contamination)`: the
IsolationForest fit is abstracted by `fit` (given the contamination and
the price series, produce the label series or raise).  Returns the
outcome (`none` = the function returned `None`) and the warnings
logged. -/
def detect_anomalies (fit : ℚ → List ℚ → Except String (List Int))
    (df : List HistRow) (coin : String) (contamination : ℚ) :
    Except String (Option (List (Int × ℚ × Int))) × List String :=
  if (coinFilter df coin).isEmpty then (.ok none, [noDataMsg coin])
  else
    match fit contamination ((coinSorted df coin).map (fun r => r.price_usd)) with
    | .error e => (.error e, [])
    | .ok labels => (.ok (some (zipLabels (coinSorted df coin) labels)), [])

/-- Prophet `make_future_dataframe(periods, freq="D",
include_history=True)` over the fitted history dates: the history dates
(sorted, deduplicated) followed by `periods` daily steps past the
maximum observed date. -/
def makeFutureFrame (df : List HistRow) (coin : String) (periods : ℕ) : List Int :=
  historyDates df coin ++ futureDates df coin periods

/-- Embeds `forecast_price(df, coin_name, periods)`: the Prophet fit is
abstracted by `fit` (given the (ds, y) series, produce the per-date
(yhat, yhat_lower, yhat_upper) predictor or raise).  Returns the
outcome (`none` = the function returned `None`: rows of
(ds, yhat, yhat_lower, yhat_upper)) and the warnings logged. -/
def forecast_price (fit : List (Int × ℚ) → Except String (Int → ℚ × ℚ × ℚ))
    (df : List HistRow) (coin : String) (periods : ℕ) :
    Except String (Option (List (Int × ℚ × ℚ × ℚ))) × List String :=
  if (coinFilter df coin).isEmpty then (.ok none, [noDataMsg coin])
  else
    match fit ((coinSorted df coin).map (fun r => (r.last_updated, r.price_usd))) with
    | .error e => (.error e, [])
    | .ok model =>
        (.ok (some ((makeFutureFrame df coin periods).map (fun d => (d, model d)))), [])

/-! ## Column-level dtype conformance, and concrete frames and rows used
to evaluate the theorems on closed inputs. -/

/-- A column conforms to `expected_types`: either its name is not
declared there, or its dtype class agrees with the declared one. -/
def dtypeOk (c : PColumn) : Bool :=
  match expectedTypes.find? (fun nt => nt.1 = c.name) with
  | none => true
  | some nt =>
      if nt.2 then decide (c.dtype = PDtype.objectD)
      else decide (c.dtype = PDtype.numericD)

/-- A persisted snapshot row used as a concrete prior store. -/
def demoRecord : AssetRecord :=
  ⟨"bitcoin", "btc", "Bitcoin", 50000, none, none, none, none, none, none, none, none⟩

/-- A concrete cleaned CSV row handed to the loader. -/
def demoLoadRow : LoadRow :=
  ⟨"ethereum", "eth", "Ethereum", 3000, none, none, none, none, none, none, none, none⟩

/-- Credentials with `POSTGRES_USER` unset. -/
def demoBadCreds : DbCreds :=
  ⟨none, some "pw", some "localhost", "5432", some "crypto"⟩

/-- A frame whose only nulls sit in `max_supply` but whose `price_usd`
column carries an object dtype. -/
def demoBadFrame : PFrame :=
  ⟨[⟨"max_supply", .numericD, [true]⟩, ⟨"price_usd", .objectD, [false]⟩]⟩

/-- A frame with a null in the critical `price_usd` column. -/
def demoCriticalFrame : PFrame :=
  ⟨[⟨"price_usd", .numericD, [true, false]⟩]⟩

/-- A clean frame from which `price_usd` is entirely absent. -/
def demoNoPriceFrame : PFrame :=
  ⟨[⟨"id", .objectD, [false]⟩, ⟨"market_cap", .numericD, [false]⟩]⟩

/-- A one-row historical frame for the absent-entity scenarios. -/
def demoHist : List HistRow := [⟨"Bitcoin", 50000, 0⟩]

/-- A two-observation historical frame for the forecast scenarios. -/
def demoHist2 : List HistRow := [⟨"Bitcoin", 10, 0⟩, ⟨"Bitcoin", 12, 1⟩]

/-- The observations of one `id` in the transform output, in output
order. -/
def observationsOf (raw : List RawEntry) (i : String) : List TransRow :=
  (transform_crypto_data raw).filter (fun t => t.row.id = i)

/-- A raw provider entry with only the essential fields and a price and
timestamp. -/
def demoRawEntry (p : ℚ) (lu : Int) : RawEntry :=
  ⟨some "bitcoin", some "btc", some "Bitcoin", some p,
   none, none, none, none, none, none, none, some lu⟩

/-- A raw snapshot with two observations of the same asset. -/
def demoRaw : List RawEntry := [demoRawEntry 10 0, demoRawEntry 20 1]

/-! ## Theorems -/

/-! ### The sort key is a total preorder -/

theorem charToNat_inj {a b : Char} (h : a.toNat = b.toNat) : a = b :=
  Char.ext (UInt32.ext h)

theorem lexLt_irrefl : ∀ x : List Char, lexLt x x = false := by
  intro x
  induction x with
  | nil => rfl
  | cons a as ih =>
      simp only [lexLt]
      rw [if_neg (Nat.lt_irrefl a.toNat), if_neg (Nat.lt_irrefl a.toNat)]
      exact ih

theorem lexLt_trans : ∀ x y z : List Char,
    lexLt x y = true → lexLt y z = true → lexLt x z = true := by
  intro x
  induction x with
  | nil =>
      intro y z hxy hyz
      cases z with
      | nil =>
          rw [show lexLt y [] = false from by cases y <;> rfl] at hyz
          cases hyz
      | cons c cs => rfl
  | cons a as ih =>
      intro y z hxy hyz
      cases y with
      | nil =>
          rw [show lexLt (a :: as) [] = false from rfl] at hxy
          cases hxy
      | cons b bs =>
          cases z with
          | nil =>
              rw [show lexLt (b :: bs) [] = false from rfl] at hyz
              cases hyz
          | cons c cs =>
              simp only [lexLt] at hxy hyz ⊢
              by_cases hab : a.toNat < b.toNat
              · by_cases hbc : b.toNat < c.toNat
                · rw [if_pos (Nat.lt_trans hab hbc)]
                · by_cases hcb : c.toNat < b.toNat
                  · rw [if_neg hbc, if_pos hcb] at hyz
                    cases hyz
                  · rw [if_pos (show a.toNat < c.toNat by omega)]
              · by_cases hba : b.toNat < a.toNat
                · rw [if_neg hab, if_pos hba] at hxy
                  cases hxy
                · rw [if_neg hab, if_neg hba] at hxy
                  by_cases hbc : b.toNat < c.toNat
                  · rw [if_pos (show a.toNat < c.toNat by omega)]
                  · by_cases hcb : c.toNat < b.toNat
                    · rw [if_neg hbc, if_pos hcb] at hyz
                      cases hyz
                    · rw [if_neg hbc, if_neg hcb] at hyz
                      rw [if_neg (show ¬ a.toNat < c.toNat by omega),
                        if_neg (show ¬ c.toNat < a.toNat by omega)]
                      exact ih bs cs hxy hyz

theorem lexLt_antisymm : ∀ x y : List Char,
    lexLt x y = false → lexLt y x = false → x = y := by
  intro x
  induction x with
  | nil =>
      intro y hxy _
      cases y with
      | nil => rfl
      | cons b bs =>
          rw [show lexLt [] (b :: bs) = true from rfl] at hxy
          cases hxy
  | cons a as ih =>
      intro y hxy hyx
      cases y with
      | nil =>
          rw [show lexLt [] (a :: as) = true from rfl] at hyx
          cases hyx
      | cons b bs =>
          simp only [lexLt] at hxy hyx
          by_cases hab : a.toNat < b.toNat
          · rw [if_pos hab] at hxy
            cases hxy
          · by_cases hba : b.toNat < a.toNat
            · rw [if_pos hba] at hyx
              cases hyx
            · rw [if_neg hab, if_neg hba] at hxy
              rw [if_neg hba, if_neg hab] at hyx
              rw [charToNat_inj (show a.toNat = b.toNat by omega), ih bs hxy hyx]

theorem strLt_irrefl (s : String) : strLt s s = false := lexLt_irrefl s.data

theorem strLt_trans {a b c : String} (h1 : strLt a b = true) (h2 : strLt b c = true) :
    strLt a c = true := lexLt_trans a.data b.data c.data h1 h2

theorem strLt_antisymm {a b : String} (h1 : strLt a b = false)
    (h2 : strLt b a = false) : a = b := by
  have h := lexLt_antisymm a.data b.data h1 h2
  cases a with
  | mk da =>
      cases b with
      | mk db => rw [show String.mk da = String.mk db from congrArg String.mk h]

theorem rowLe_trans : ∀ a b c : CleanRow, rowLe a b → rowLe b c → rowLe a c := by
  intro a b c hab hbc
  rcases hab with h1 | ⟨e1, l1⟩
  · rcases hbc with h2 | ⟨e2, _⟩
    · exact Or.inl (strLt_trans h1 h2)
    · exact Or.inl (e2 ▸ h1)
  · rcases hbc with h2 | ⟨e2, l2⟩
    · exact Or.inl (e1 ▸ h2)
    · refine Or.inr ⟨e1.trans e2, ?_⟩
      cases ha : a.last_updated <;> cases hb : b.last_updated <;>
        cases hc : c.last_updated <;> simp_all [luLe] <;> omega

theorem rowLe_total : ∀ a b : CleanRow, rowLe a b ∨ rowLe b a := by
  intro a b
  by_cases heq : a.id = b.id
  · cases hb : b.last_updated with
    | none => exact Or.inl (Or.inr ⟨heq, by simp [luLe, hb]⟩)
    | some y =>
      cases ha : a.last_updated with
      | none => exact Or.inr (Or.inr ⟨heq.symm, by simp [luLe, ha]⟩)
      | some x =>
          rcases Int.le_total x y with h | h
          · exact Or.inl (Or.inr ⟨heq, by simp [luLe, ha, hb, h]⟩)
          · exact Or.inr (Or.inr ⟨heq.symm, by simp [luLe, ha, hb, h]⟩)
  · by_cases hab : strLt a.id b.id = true
    · exact Or.inl (Or.inl hab)
    · by_cases hba : strLt b.id a.id = true
      · exact Or.inr (Or.inl hba)
      · have h1 : strLt a.id b.id = false := by simpa using hab
        have h2 : strLt b.id a.id = false := by simpa using hba
        exact absurd (strLt_antisymm h1 h2) heq

/-- C2 counterexample: when the log file write fails, `log_lineage`
raises to its caller (there is no suppression), and the wrapped stage
outcome of a successful body is altered into an error. -/
theorem log_lineage_write_failure_raises :
    log_lineage false [] "extract" "success" none = .error () ∧
    (lineage_wrap false "extract" [] (.ok (42 : ℕ))).1 = .error lineageWriteFailure := by
  exact ⟨rfl, rfl⟩

/-- C2 (amended): `log_lineage` appends one entry when the log is
writable and `lineage_wrap` then preserves the stage outcome; but a
log-write failure is propagated, not suppressed: `log_lineage` raises
and the wrapped stage fails with the write error, whatever the body
did. -/
theorem log_lineage_propagates_write_failures {α : Type} (step status : String)
    (em : Option String) (log : List LineageEntry) (a : α) (e : String)
    (body : Except String α) :
    (log_lineage true log step status em = .ok (log ++ [⟨step, status, em⟩])) ∧
    (lineage_wrap true step log (.ok a) = (.ok a, log ++ [⟨step, "success", none⟩])) ∧
    (lineage_wrap (α := α) true step log (.error e) =
      (.error e, log ++ [⟨step, "error", some e⟩])) ∧
    (log_lineage false log step status em = .error ()) ∧
    (lineage_wrap false step log body).1 = .error lineageWriteFailure ∧
    (lineage_wrap false step log body).2 = log := by
  refine ⟨rfl, rfl, rfl, rfl, ?_, ?_⟩ <;> cases body <;> rfl

/-- C1 counterexample: a replace that fails during the insert phase
leaves the store emptied rather than the prior snapshot — the delete
had already been committed on its own. -/
theorem load_failed_insert_empties_store :
    (load_to_postgres [demoLoadRow] [demoRecord] .duringInsert).1 = .error "StorageError" ∧
    (load_to_postgres [demoLoadRow] [demoRecord] .duringInsert).2 = [] ∧
    ((load_to_postgres [demoLoadRow] [demoRecord] .duringInsert).2 ≠ [demoRecord]) := by
  refine ⟨rfl, rfl, by simp [load_to_postgres, sessionRollback, sessionCommit,
    deleteAll, bulkSave, sessionBegin]⟩

/-- C1 (amended): rollback protects only the open transaction.  A
failure during the delete statement or its commit leaves the prior
snapshot intact; a failure during the insert phase leaves the store
emptied, because the delete was committed separately.  In every case
the store is the prior snapshot, empty, or exactly the new rows —
never a partial mix. -/
theorem load_to_postgres_failure_states (df : List LoadRow) (store : Store) :
    load_to_postgres df store .duringDelete = (.error "StorageError", store) ∧
    load_to_postgres df store .duringInsert = (.error "StorageError", []) ∧
    (∀ fail, (load_to_postgres df store fail).2 = store ∨
      (load_to_postgres df store fail).2 = [] ∨
      (load_to_postgres df store fail).2 = df.map toAssetRecord) := by
  refine ⟨rfl, rfl, ?_⟩
  intro fail
  cases fail
  · exact Or.inl rfl
  · exact Or.inr (Or.inl rfl)
  · exact Or.inr (Or.inr rfl)

/-- C7: a successful replace succeeds with the store holding exactly
the mapped rows of the table — a record is in the store iff it is the
image of a table row — with `id`s kept one-to-one, and replacing twice
with the same table is identical to replacing once. -/
theorem load_to_postgres_replace_exact (df : List LoadRow) (store : Store) :
    (load_to_postgres df store .noFailure).1 = .ok () ∧
    (load_to_postgres df store .noFailure).2 = df.map toAssetRecord ∧
    (∀ rec, rec ∈ (load_to_postgres df store .noFailure).2 ↔
      ∃ r ∈ df, toAssetRecord r = rec) ∧
    ((df.map (·.id)).Nodup →
      (((load_to_postgres df store .noFailure).2.map (·.id)).Nodup)) ∧
    load_to_postgres df ((load_to_postgres df store .noFailure).2) .noFailure =
      load_to_postgres df store .noFailure := by
  refine ⟨rfl, rfl, ?_, ?_, rfl⟩
  · intro rec
    simp [load_to_postgres, sessionCommit, deleteAll, bulkSave, sessionBegin]
  · intro h
    have : ((load_to_postgres df store .noFailure).2.map (·.id)) = df.map (·.id) := by
      show ((df.map toAssetRecord).map (·.id)) = df.map (·.id)
      rw [List.map_map]
      rfl
    rw [this]
    exact h

/-- C7 witness: the exact-replace theorem evaluated on a one-row table
over a non-empty prior store. -/
theorem load_to_postgres_replace_exact_witness :
    ([demoLoadRow].map (·.id)).Nodup ∧
    (((load_to_postgres [demoLoadRow] [demoRecord] .noFailure).2.map (·.id)).Nodup) :=
  ⟨by decide, (load_to_postgres_replace_exact [demoLoadRow] [demoRecord]).2.2.2.1 (by decide)⟩

/-- C3 counterexample: `load` invoked with no `db_url` and a missing
`POSTGRES_USER` returns normally with the store untouched — the hard
failure is converted into a soft success instead of propagating. -/
theorem pipeline_load_missing_creds_soft :
    pipeline_load [demoLoadRow] none demoBadCreds [demoRecord] .noFailure =
      (.ok (), [demoRecord]) := rfl

/-- C3 (amended): an error raised inside a stage is recorded by the
lineage wrapper, notified when a webhook is configured, and re-raised
unchanged to the caller, and a successful body passes through; but the
no-`db_url`, incomplete-credentials path of `load` is not an error at
all: it logs and returns normally, leaving the store untouched. -/
theorem stage_error_propagation {α : Type} (webhook : Option String) (step : String)
    (log : List LineageEntry) (e : String) (a : α)
    (rows : List LoadRow) (creds : DbCreds) (store : Store) (fail : LoadFailure) :
    (run_stage webhook true step log (.error (α := α) e)).1 = .error e ∧
    (run_stage webhook true step log (.error (α := α) e)).2.1 =
      log ++ [⟨step, "error", some e⟩] ∧
    (run_stage (some "https://hooks.example/x") true step log (.error (α := α) e)).2.2 =
      ["ETL Pipeline Error in " ++ step ++ ": " ++ e] ∧
    (run_stage webhook true step log (.ok a)).1 = .ok a ∧
    (credsComplete creds = false →
      pipeline_load rows none creds store fail = (.ok (), store)) := by
  refine ⟨?_, rfl, rfl, rfl, ?_⟩
  · cases webhook <;> rfl
  · intro h
    simp [pipeline_load, h]

/-- C3 witness: the propagation theorem evaluated at the concrete
incomplete credentials. -/
theorem stage_error_propagation_witness :
    credsComplete demoBadCreds = false ∧
    pipeline_load [demoLoadRow] none demoBadCreds [demoRecord] .noFailure =
      (.ok (), [demoRecord]) :=
  ⟨rfl, (stage_error_propagation (α := Unit) none "load" [] "" ()
    [demoLoadRow] demoBadCreds [demoRecord] .noFailure).2.2.2.2 rfl⟩

/-- C9: when the case-insensitive name filter selects no rows, both
analytics log the not-found warning and return an absent result, and
neither raises — even if the abstracted model fit would fail. -/
theorem analytics_absent_entity (fitA : ℚ → List ℚ → Except String (List Int))
    (fitF : List (Int × ℚ) → Except String (Int → ℚ × ℚ × ℚ))
    (df : List HistRow) (coin : String) (contamination : ℚ) (periods : ℕ)
    (h : (df.filter (fun r => nameMatches r coin)).isEmpty = true) :
    detect_anomalies fitA df coin contamination = (.ok none, [noDataMsg coin]) ∧
    forecast_price fitF df coin periods = (.ok none, [noDataMsg coin]) := by
  constructor <;> simp [detect_anomalies, forecast_price, coinFilter, h]

/-- C9 witness: the absent-entity theorem evaluated on a frame holding
only Bitcoin, queried for dogecoin, with fits that would fail. -/
theorem analytics_absent_entity_witness :
    ((demoHist.filter (fun r => nameMatches r "dogecoin")).isEmpty = true) ∧
    detect_anomalies (fun _ _ => .error "fit crashed") demoHist "dogecoin" (5 / 100) =
      (.ok none, [noDataMsg "dogecoin"]) ∧
    forecast_price (fun _ => .error "fit crashed") demoHist "dogecoin" 7 =
      (.ok none, [noDataMsg "dogecoin"]) := by
  have h : (demoHist.filter (fun r => nameMatches r "dogecoin")).isEmpty = true := by
    decide
  exact ⟨h, analytics_absent_entity (fun _ _ => .error "fit crashed")
    (fun _ => .error "fit crashed") demoHist "dogecoin" (5 / 100) 7 h⟩

/-! ### Validation lemmas -/

theorem nullIssues_warn_mem {cols : List PColumn} {c : PColumn} (hc : c ∈ cols)
    (hname : c.name = "max_supply") (hnull : c.isnull.contains true = true) :
    warnMsg "max_supply" ∈ (nullIssues cols).1 := by
  induction cols with
  | nil => cases hc
  | cons d ds ih =>
      rcases List.mem_cons.mp hc with rfl | hmem
      · rw [nullIssues, if_pos hnull, if_pos hname, hname]
        exact List.mem_cons_self _ _
      · by_cases hd : d.isnull.contains true = true
        · rw [nullIssues, if_pos hd]
          by_cases hn : d.name = "max_supply"
          · rw [if_pos hn]
            exact List.mem_cons_of_mem _ (ih hmem)
          · rw [if_neg hn]
            exact ih hmem
        · rw [nullIssues, if_neg hd]
          exact ih hmem

theorem nullIssues_critical_mem {cols : List PColumn} {c : PColumn} (hc : c ∈ cols)
    (hname : c.name ≠ "max_supply") (hnull : c.isnull.contains true = true) :
    criticalMsg c.name ∈ (nullIssues cols).2 := by
  induction cols with
  | nil => cases hc
  | cons d ds ih =>
      rcases List.mem_cons.mp hc with rfl | hmem
      · rw [nullIssues, if_pos hnull, if_neg hname]
        exact List.mem_cons_self _ _
      · by_cases hd : d.isnull.contains true = true
        · rw [nullIssues, if_pos hd]
          by_cases hn : d.name = "max_supply"
          · rw [if_pos hn]
            exact ih hmem
          · rw [if_neg hn]
            exact List.mem_cons_of_mem _ (ih hmem)
        · rw [nullIssues, if_neg hd]
          exact ih hmem

theorem nullIssues_issues_nil {cols : List PColumn}
    (h : ∀ c ∈ cols, c.isnull.contains true = true → c.name = "max_supply") :
    (nullIssues cols).2 = [] := by
  induction cols with
  | nil => rfl
  | cons d ds ih =>
      have hds := ih (fun c hc => h c (List.mem_cons_of_mem d hc))
      by_cases hd : d.isnull.contains true = true
      · have hn := h d (List.mem_cons_self d ds) hd
        rw [nullIssues, if_pos hd, if_pos hn]
        exact hds
      · rw [nullIssues, if_neg hd]
        exact hds

theorem nullIssues_none {cols : List PColumn}
    (h : ∀ c ∈ cols, c.isnull.contains true = false) :
    nullIssues cols = ([], []) := by
  induction cols with
  | nil => rfl
  | cons d ds ih =>
      have hds := ih (fun c hc => h c (List.mem_cons_of_mem d hc))
      have hd : ¬ (d.isnull.contains true = true) := by
        rw [h d (List.mem_cons_self d ds)]
        exact Bool.false_ne_true
      rw [nullIssues, if_neg hd]
      exact hds

theorem nullIssues_warn_named {cols : List PColumn} :
    ∀ m ∈ (nullIssues cols).1, ∃ c ∈ cols, m = warnMsg c.name := by
  induction cols with
  | nil => intro m hm; cases hm
  | cons d ds ih =>
      intro m hm
      by_cases hd : d.isnull.contains true = true
      · by_cases hn : d.name = "max_supply"
        · rw [nullIssues, if_pos hd, if_pos hn] at hm
          rcases List.mem_cons.mp hm with rfl | hmem
          · exact ⟨d, List.mem_cons_self d ds, rfl⟩
          · obtain ⟨c, hc, hc2⟩ := ih m hmem
            exact ⟨c, List.mem_cons_of_mem d hc, hc2⟩
        · rw [nullIssues, if_pos hd, if_neg hn] at hm
          obtain ⟨c, hc, hc2⟩ := ih m hm
          exact ⟨c, List.mem_cons_of_mem d hc, hc2⟩
      · rw [nullIssues, if_neg hd] at hm
        obtain ⟨c, hc, hc2⟩ := ih m hm
        exact ⟨c, List.mem_cons_of_mem d hc, hc2⟩

theorem nullIssues_critical_named {cols : List PColumn} :
    ∀ m ∈ (nullIssues cols).2, ∃ c ∈ cols, m = criticalMsg c.name := by
  induction cols with
  | nil => intro m hm; cases hm
  | cons d ds ih =>
      intro m hm
      by_cases hd : d.isnull.contains true = true
      · by_cases hn : d.name = "max_supply"
        · rw [nullIssues, if_pos hd, if_pos hn] at hm
          obtain ⟨c, hc, hc2⟩ := ih m hm
          exact ⟨c, List.mem_cons_of_mem d hc, hc2⟩
        · rw [nullIssues, if_pos hd, if_neg hn] at hm
          rcases List.mem_cons.mp hm with rfl | hmem
          · exact ⟨d, List.mem_cons_self d ds, rfl⟩
          · obtain ⟨c, hc, hc2⟩ := ih m hmem
            exact ⟨c, List.mem_cons_of_mem d hc, hc2⟩
      · rw [nullIssues, if_neg hd] at hm
        obtain ⟨c, hc, hc2⟩ := ih m hm
        exact ⟨c, List.mem_cons_of_mem d hc, hc2⟩

theorem findCol_mem {df : PFrame} {n : String} {c : PColumn}
    (h : findCol df n = some c) : c ∈ df.cols ∧ c.name = n := by
  refine ⟨List.mem_of_find?_eq_some h, ?_⟩
  have := List.find?_some h
  exact of_decide_eq_true this

theorem typeIssuesOver_named {df : PFrame} :
    ∀ ets, ∀ m ∈ typeIssuesOver df ets,
      ∃ c ∈ df.cols, m = textualTypeMsg c.name ∨ m = numericTypeMsg c.name := by
  intro ets
  induction ets with
  | nil => intro m hm; cases hm
  | cons nt rest ih =>
      intro m hm
      cases hfind : findCol df nt.1 with
      | none =>
          simp only [typeIssuesOver, hfind] at hm
          exact ih m hm
      | some c =>
          obtain ⟨hcmem, hcname⟩ := findCol_mem hfind
          simp only [typeIssuesOver, hfind] at hm
          by_cases ht : nt.2
          · by_cases hdt : c.dtype = PDtype.objectD
            · rw [if_pos ht, if_pos hdt] at hm
              exact ih m hm
            · rw [if_pos ht, if_neg hdt] at hm
              rcases List.mem_cons.mp hm with rfl | hmem
              · exact ⟨c, hcmem, Or.inl (by rw [hcname])⟩
              · exact ih m hmem
          · by_cases hdt : c.dtype = PDtype.numericD
            · rw [if_neg ht, if_pos hdt] at hm
              exact ih m hm
            · rw [if_neg ht, if_neg hdt] at hm
              rcases List.mem_cons.mp hm with rfl | hmem
              · exact ⟨c, hcmem, Or.inr (by rw [hcname])⟩
              · exact ih m hmem

theorem typeIssuesOver_nil {df : PFrame} {ets : List (String × Bool)}
    (h : ∀ nt ∈ ets, ∀ c, findCol df nt.1 = some c →
      if nt.2 then c.dtype = PDtype.objectD else c.dtype = PDtype.numericD) :
    typeIssuesOver df ets = [] := by
  induction ets with
  | nil => rfl
  | cons nt rest ih =>
      have hrest := ih (fun x hx => h x (List.mem_cons_of_mem nt hx))
      cases hfind : findCol df nt.1 with
      | none => simp only [typeIssuesOver, hfind]; exact hrest
      | some c =>
          have hc := h nt (List.mem_cons_self nt rest) c hfind
          simp only [typeIssuesOver, hfind]
          by_cases ht : nt.2
          · rw [if_pos ht] at hc
            rw [if_pos ht, if_pos hc]
            exact hrest
          · rw [if_neg ht] at hc
            rw [if_neg ht, if_pos hc]
            exact hrest

theorem expectedTypes_find_self :
    ∀ nt ∈ expectedTypes, expectedTypes.find? (fun x => x.1 = nt.1) = some nt := by
  decide

theorem typeIssues_nil_of_dtypeOk {df : PFrame}
    (h : ∀ c ∈ df.cols, dtypeOk c = true) : typeIssues df = [] := by
  apply typeIssuesOver_nil
  intro nt hnt c hfind
  obtain ⟨hcmem, hcname⟩ := findCol_mem hfind
  have hok := h c hcmem
  simp only [dtypeOk, hcname, expectedTypes_find_self nt hnt] at hok
  by_cases ht : nt.2
  · rw [if_pos ht] at hok
    rw [if_pos ht]
    exact of_decide_eq_true hok
  · rw [if_neg ht] at hok
    rw [if_neg ht]
    exact of_decide_eq_true hok

/-- C4 counterexample: a frame whose only nulls sit in `max_supply`
still raises when a dtype issue exists elsewhere, so the
only-warns-and-returns half of the claim fails as stated. -/
theorem validate_maxsupply_only_still_raises :
    (∀ c ∈ demoBadFrame.cols, c.isnull.contains true = true → c.name = "max_supply") ∧
    (validate_data demoBadFrame).2 = .error [numericTypeMsg "price_usd"] ∧
    (validate_data demoBadFrame).1 = [warnMsg "max_supply"] := by
  exact ⟨by decide, rfl, rfl⟩

/-- C4 (amended): any null in a critical (non-`max_supply`) column
makes `validate_data` raise, with the aggregated report naming every
offending critical column and carrying every dtype issue as well; a
table whose only nulls are in `max_supply` and which has no dtype
issues logs a warning and returns without raising. -/
theorem validate_data_two_tier (df : PFrame) :
    ((∃ c ∈ df.cols, c.name ≠ "max_supply" ∧ c.isnull.contains true = true) →
      ∃ issues, (validate_data df).2 = .error issues ∧
        (∀ c ∈ df.cols, c.name ≠ "max_supply" → c.isnull.contains true = true →
          criticalMsg c.name ∈ issues) ∧
        (∀ m ∈ typeIssues df, m ∈ issues)) ∧
    ((∀ c ∈ df.cols, c.isnull.contains true = true → c.name = "max_supply") →
      typeIssues df = [] →
      (validate_data df).2 = .ok () ∧
      ((∃ c ∈ df.cols, c.name = "max_supply" ∧ c.isnull.contains true = true) →
        warnMsg "max_supply" ∈ (validate_data df).1)) := by
  constructor
  · rintro ⟨c, hc, hname, hnull⟩
    have hmem := nullIssues_critical_mem hc hname hnull
    refine ⟨(nullIssues df.cols).2 ++ typeIssues df, ?_, ?_, ?_⟩
    · have hne : ((nullIssues df.cols).2 ++ typeIssues df).isEmpty = false := by
        cases hh : (nullIssues df.cols).2 with
        | nil => rw [hh] at hmem; cases hmem
        | cons x xs => rfl
      simp only [validate_data, hne, Bool.false_eq_true, if_false]
    · intro d hd hdname hdnull
      exact List.mem_append_left _ (nullIssues_critical_mem hd hdname hdnull)
    · intro m hm
      exact List.mem_append_right _ hm
  · intro h htype
    have hnil := nullIssues_issues_nil h
    constructor
    · simp only [validate_data, hnil, htype, List.nil_append, List.isEmpty_nil, if_true]
    · rintro ⟨c, hc, hname, hnull⟩
      exact nullIssues_warn_mem hc hname hnull

/-- C4 witness: the two-tier theorem evaluated on a frame with a null
in `price_usd`. -/
theorem validate_data_two_tier_witness :
    (∃ c ∈ demoCriticalFrame.cols, c.name ≠ "max_supply" ∧ c.isnull.contains true = true) ∧
    ∃ issues, (validate_data demoCriticalFrame).2 = .error issues ∧
      (∀ c ∈ demoCriticalFrame.cols, c.name ≠ "max_supply" →
        c.isnull.contains true = true → criticalMsg c.name ∈ issues) ∧
      (∀ m ∈ typeIssues demoCriticalFrame, m ∈ issues) :=
  ⟨by decide, (validate_data_two_tier demoCriticalFrame).1 (by decide)⟩

/-- C10: `validate_data` only inspects columns the frame actually has —
every warning and every issue names a column of the frame — and a frame
lacking `price_usd` entirely passes with no error and no warning when
its own columns are null-free and dtype-conformant. -/
theorem validate_inspects_only_present_columns (df : PFrame) :
    (∀ m ∈ (validate_data df).1, ∃ c ∈ df.cols, m = warnMsg c.name) ∧
    (∀ issues, (validate_data df).2 = .error issues →
      ∀ m ∈ issues, ∃ c ∈ df.cols,
        m = criticalMsg c.name ∨ m = textualTypeMsg c.name ∨ m = numericTypeMsg c.name) ∧
    ((∀ c ∈ df.cols, c.name ≠ "price_usd") →
      (∀ c ∈ df.cols, c.isnull.contains true = false ∧ dtypeOk c = true) →
      validate_data df = ([], .ok ())) := by
  refine ⟨?_, ?_, ?_⟩
  · intro m hm
    exact nullIssues_warn_named m hm
  · intro issues hiss m hm
    have : issues = (nullIssues df.cols).2 ++ typeIssues df := by
      by_cases he : ((nullIssues df.cols).2 ++ typeIssues df).isEmpty = true
      · simp only [validate_data, he, if_true] at hiss
        cases hiss
      · simp only [validate_data, he, Bool.false_eq_true, if_false,
          Except.error.injEq] at hiss
        exact hiss.symm
    subst this
    rcases List.mem_append.mp hm with hnull | htype
    · obtain ⟨c, hc, hc2⟩ := nullIssues_critical_named m hnull
      exact ⟨c, hc, Or.inl hc2⟩
    · obtain ⟨c, hc, hc2⟩ := typeIssuesOver_named expectedTypes m htype
      exact ⟨c, hc, Or.inr hc2⟩
  · intro _ hclean
    have hnulls := nullIssues_none (fun c hc => (hclean c hc).1)
    have htypes := typeIssues_nil_of_dtypeOk (fun c hc => (hclean c hc).2)
    simp only [validate_data, hnulls, htypes, List.nil_append, List.isEmpty_nil, if_true]

/-- C10 witness: the present-columns theorem evaluated on a clean frame
from which `price_usd` is entirely absent. -/
theorem validate_inspects_only_present_columns_witness :
    (∀ c ∈ demoNoPriceFrame.cols, c.name ≠ "price_usd") ∧
    (∀ c ∈ demoNoPriceFrame.cols, c.isnull.contains true = false ∧ dtypeOk c = true) ∧
    validate_data demoNoPriceFrame = ([], .ok ()) :=
  ⟨by decide, by decide,
    (validate_inspects_only_present_columns demoNoPriceFrame).2.2 (by decide) (by decide)⟩

/-! ### Retry lemmas -/

theorem retryable_eq_requestFailure {α : Type} {a : AttemptResult α}
    (h : retryable a = true) : a = .requestFailure (msgOf a) := by
  cases a with
  | ok v => cases h
  | requestFailure m => rfl
  | shapeFailure m => cases h

theorem tenacityRun_ok {α : Type} {attempts : ℕ → AttemptResult α} {k : ℕ} {v : α}
    (h : attempts k = .ok v) (r : ℕ) :
    tenacityRun attempts k r = (.ok v, k, []) := by
  rw [tenacityRun.eq_def, h]

theorem tenacityRun_shapeStep {α : Type} {attempts : ℕ → AttemptResult α} {k : ℕ}
    {m : String} (h : attempts k = .shapeFailure m) (r : ℕ) :
    tenacityRun attempts k r = (.raised m, k, []) := by
  rw [tenacityRun.eq_def, h]

theorem tenacityRun_failZero {α : Type} {attempts : ℕ → AttemptResult α} {k : ℕ}
    {m : String} (h : attempts k = .requestFailure m) :
    tenacityRun attempts k 0 = (.retryExhausted m, k, []) := by
  rw [tenacityRun.eq_def, h]

theorem tenacityRun_failSucc {α : Type} {attempts : ℕ → AttemptResult α} {k : ℕ}
    {m : String} (h : attempts k = .requestFailure m) (r : ℕ) :
    tenacityRun attempts k (r + 1) =
      ((tenacityRun attempts (k + 1) r).1, (tenacityRun attempts (k + 1) r).2.1,
        waitExponential 1 4 10 k :: (tenacityRun attempts (k + 1) r).2.2) := by
  rw [tenacityRun.eq_def, h]

theorem tenacityRun_success {α : Type} (attempts : ℕ → AttemptResult α) :
    ∀ (d k r : ℕ) (v : α),
      (∀ j, k ≤ j → j < k + d → retryable (attempts j) = true) →
      attempts (k + d) = .ok v → d ≤ r →
      tenacityRun attempts k r =
        (.ok v, k + d, (List.range' k d).map (waitExponential 1 4 10)) := by
  intro d
  induction d with
  | zero =>
      intro k r v _ hok _
      rw [Nat.add_zero] at hok
      exact tenacityRun_ok hok r
  | succ d ih =>
      intro k r v hfail hok hd
      have hk : attempts k = .requestFailure (msgOf (attempts k)) :=
        retryable_eq_requestFailure (hfail k le_rfl (by omega))
      cases r with
      | zero => omega
      | succ r =>
          have hrest := ih (k + 1) r v
            (fun j h1 h2 => hfail j (by omega) (by omega))
            (by rw [show k + 1 + d = k + (d + 1) by omega]; exact hok)
            (by omega)
          rw [tenacityRun_failSucc hk, hrest, List.range'_succ, List.map_cons,
            show k + 1 + d = k + (d + 1) from by omega]

theorem tenacityRun_shape {α : Type} (attempts : ℕ → AttemptResult α) :
    ∀ (d k r : ℕ) (m : String),
      (∀ j, k ≤ j → j < k + d → retryable (attempts j) = true) →
      attempts (k + d) = .shapeFailure m → d ≤ r →
      tenacityRun attempts k r =
        (.raised m, k + d, (List.range' k d).map (waitExponential 1 4 10)) := by
  intro d
  induction d with
  | zero =>
      intro k r m _ hshape _
      rw [Nat.add_zero] at hshape
      exact tenacityRun_shapeStep hshape r
  | succ d ih =>
      intro k r m hfail hshape hd
      have hk : attempts k = .requestFailure (msgOf (attempts k)) :=
        retryable_eq_requestFailure (hfail k le_rfl (by omega))
      cases r with
      | zero => omega
      | succ r =>
          have hrest := ih (k + 1) r m
            (fun j h1 h2 => hfail j (by omega) (by omega))
            (by rw [show k + 1 + d = k + (d + 1) by omega]; exact hshape)
            (by omega)
          rw [tenacityRun_failSucc hk, hrest, List.range'_succ, List.map_cons,
            show k + 1 + d = k + (d + 1) from by omega]

theorem tenacityRun_exhausted {α : Type} (attempts : ℕ → AttemptResult α) :
    ∀ (r k : ℕ),
      (∀ j, k ≤ j → j ≤ k + r → retryable (attempts j) = true) →
      tenacityRun attempts k r =
        (.retryExhausted (msgOf (attempts (k + r))), k + r,
          (List.range' k r).map (waitExponential 1 4 10)) := by
  intro r
  induction r with
  | zero =>
      intro k hfail
      have hk : attempts k = .requestFailure (msgOf (attempts k)) :=
        retryable_eq_requestFailure (hfail k le_rfl (by omega))
      rw [Nat.add_zero]
      exact tenacityRun_failZero hk
  | succ r ih =>
      intro k hfail
      have hk : attempts k = .requestFailure (msgOf (attempts k)) :=
        retryable_eq_requestFailure (hfail k le_rfl (by omega))
      have hrest := ih (k + 1) (fun j h1 h2 => hfail j (by omega) (by omega))
      rw [tenacityRun_failSucc hk, hrest, List.range'_succ, List.map_cons,
        show k + 1 + r = k + (r + 1) from by omega]

/-- C6: the decorated fetch retries only retryable
(`requests.exceptions.RequestException`) failures: a payload-shape
failure at any attempt propagates at once with no further attempt; a
success at attempt `k ≤ 5` after retryable failures returns the value
having slept the exponential waits; five retryable failures exhaust
the budget and raise `RetryError` wrapping the last failure, after
waits 4, 4, 8, 10; and every wait starts at 4, is capped at 10 and is
nondecreasing. -/
theorem fetch_retry_policy {α : Type} (attempts : ℕ → AttemptResult α) :
    (∀ k v, 1 ≤ k → k ≤ 5 →
      (∀ j, 1 ≤ j → j < k → retryable (attempts j) = true) →
      attempts k = .ok v →
      fetch_top_50_cryptos attempts =
        (.ok v, k, (List.range' 1 (k - 1)).map (waitExponential 1 4 10))) ∧
    (∀ k m, 1 ≤ k → k ≤ 5 →
      (∀ j, 1 ≤ j → j < k → retryable (attempts j) = true) →
      attempts k = .shapeFailure m →
      fetch_top_50_cryptos attempts =
        (.raised m, k, (List.range' 1 (k - 1)).map (waitExponential 1 4 10))) ∧
    ((∀ j, 1 ≤ j → j ≤ 5 → retryable (attempts j) = true) →
      fetch_top_50_cryptos attempts =
        (.retryExhausted (msgOf (attempts 5)), 5, [4, 4, 8, 10])) ∧
    waitExponential 1 4 10 1 = 4 ∧
    (∀ k, 4 ≤ waitExponential 1 4 10 k ∧ waitExponential 1 4 10 k ≤ 10) ∧
    (∀ k, waitExponential 1 4 10 k ≤ waitExponential 1 4 10 (k + 1)) := by
  refine ⟨?_, ?_, ?_, rfl, ?_, ?_⟩
  · intro k v h1 h5 hfail hok
    have := tenacityRun_success attempts (k - 1) 1 4 v
      (fun j hj1 hj2 => hfail j hj1 (by omega))
      (by rw [show 1 + (k - 1) = k by omega]; exact hok) (by omega)
    rw [show 1 + (k - 1) = k by omega] at this
    exact this
  · intro k m h1 h5 hfail hshape
    have := tenacityRun_shape attempts (k - 1) 1 4 m
      (fun j hj1 hj2 => hfail j hj1 (by omega))
      (by rw [show 1 + (k - 1) = k by omega]; exact hshape) (by omega)
    rw [show 1 + (k - 1) = k by omega] at this
    exact this
  · intro hfail
    have := tenacityRun_exhausted attempts 4 1 (fun j h1 h2 => hfail j h1 (by omega))
    show tenacityRun attempts 1 4 = _
    rw [this]
    rfl
  · intro k
    refine ⟨le_max_left _ _, ?_⟩
    rw [waitExponential]
    omega
  · intro k
    rw [waitExponential, waitExponential]
    have h2 : (2 : ℕ) ^ k ≤ 2 ^ (k + 1) := Nat.pow_le_pow_right (by omega) (by omega)
    simp only [one_mul]
    omega

/-- C6 witness: the retry-policy theorem evaluated on attempts that
always fail with a transport error: the budget is exhausted after 5
attempts and waits 4, 4, 8, 10. -/
theorem fetch_retry_policy_witness :
    (∀ j, 1 ≤ j → j ≤ 5 →
      retryable ((fun _ => AttemptResult.requestFailure (α := ℕ) "connection reset") j) = true) ∧
    fetch_top_50_cryptos (fun _ => AttemptResult.requestFailure (α := ℕ) "connection reset") =
      (.retryExhausted "connection reset", 5, [4, 4, 8, 10]) :=
  ⟨fun _ _ _ => rfl,
    (fetch_retry_policy (fun _ => AttemptResult.requestFailure (α := ℕ) "connection reset")).2.2.1
      (fun _ _ _ => rfl)⟩

/-- C8 counterexample: with two Bitcoin observations at days 0 and 1
and `periods = 1`, the forecast result holds three rows — predictions
for the two historical timestamps as well as the one future point — so
the result rows are not only the future points of the projection. -/
theorem forecast_result_includes_history :
    (forecast_price (fun _ => .ok (fun _ => ((1 : ℚ), (0 : ℚ), (2 : ℚ))))
        demoHist2 "bitcoin" 1).1 =
      .ok (some [(0, 1, 0, 2), (1, 1, 0, 2), (2, 1, 0, 2)]) ∧
    [((0 : Int), (1 : ℚ), (0 : ℚ), (2 : ℚ)), (1, 1, 0, 2), (2, 1, 0, 2)].length ≠ 1 := by
  exact ⟨rfl, by decide⟩

/-- C8 (amended): on a non-empty entity match with a successful model
fit, the forecast result rows are the predictions at the historical
timestamps followed by the `periods` future points; exactly `periods`
rows are future points, each strictly beyond every observed timestamp,
and every row carries the model prediction triple (value, lower bound,
upper bound) for its timestamp. -/
theorem forecast_rows_structure
    (fit : List (Int × ℚ) → Except String (Int → ℚ × ℚ × ℚ))
    (df : List HistRow) (coin : String) (periods : ℕ) (model : Int → ℚ × ℚ × ℚ)
    (hne : (coinFilter df coin).isEmpty = false)
    (hfit : fit ((coinSorted df coin).map (fun r => (r.last_updated, r.price_usd))) =
      .ok model) :
    forecast_price fit df coin periods =
      (.ok (some ((historyDates df coin ++ futureDates df coin periods).map
        (fun d => (d, model d)))), []) ∧
    (futureDates df coin periods).length = periods ∧
    (∀ d ∈ futureDates df coin periods, ∀ r ∈ coinFilter df coin,
      r.last_updated < d) := by
  refine ⟨?_, ?_, ?_⟩
  · rw [forecast_price, if_neg (by rw [hne]; exact Bool.false_ne_true), hfit]
    rfl
  · rw [futureDates, List.length_map, List.length_range]
  · intro d hd r hr
    simp only [futureDates, List.mem_map, List.mem_range] at hd
    obtain ⟨k, _, rfl⟩ := hd
    have hmem : r.last_updated ∈ historyDates df coin := by
      simp only [historyDates, List.mem_dedup, List.mem_map]
      exact ⟨r, (List.mem_insertionSort dsLe).mpr hr, rfl⟩
    have hle := List.le_maximum_of_mem' hmem
    cases hmax : (historyDates df coin).maximum with
    | bot =>
        rw [hmax] at hle
        exact absurd hle (WithBot.not_coe_le_bot _)
    | coe m =>
        rw [hmax] at hle
        have hm : r.last_updated ≤ m := WithBot.coe_le_coe.mp hle
        have hl : lastDate df coin = m := by
          rw [lastDate, hmax]
          rfl
        rw [hl]
        omega

/-- C8 witness: the structure theorem evaluated on the two-observation
Bitcoin frame with one forecast period and a constant fitted model. -/
theorem forecast_rows_structure_witness :
    ((coinFilter demoHist2 "bitcoin").isEmpty = false) ∧
    forecast_price (fun _ => .ok (fun _ => ((1 : ℚ), (0 : ℚ), (2 : ℚ))))
        demoHist2 "bitcoin" 1 =
      (.ok (some ((historyDates demoHist2 "bitcoin" ++
        futureDates demoHist2 "bitcoin" 1).map
          (fun d => (d, (fun _ => ((1 : ℚ), (0 : ℚ), (2 : ℚ))) d)))), []) :=
  ⟨rfl, (forecast_rows_structure (fun _ => .ok (fun _ => ((1 : ℚ), (0 : ℚ), (2 : ℚ))))
    demoHist2 "bitcoin" 1 (fun _ => ((1 : ℚ), (0 : ℚ), (2 : ℚ))) rfl rfl).1⟩

/-! ### Transform lemmas: the zipped feature columns -/

theorem zipFeatures_row_mem {t : TransRow} :
    ∀ (rs : List CleanRow) (qs : List ℚ) (cs : List (Option ℚ)),
      t ∈ zipFeatures rs qs cs → t.row ∈ rs := by
  intro rs
  induction rs with
  | nil => intro qs cs h; exact absurd h (List.not_mem_nil t)
  | cons r rs ih =>
      intro qs cs h
      cases qs with
      | nil => exact absurd h (List.not_mem_nil t)
      | cons q qs =>
          cases cs with
          | nil => exact absurd h (List.not_mem_nil t)
          | cons c cs =>
              rcases List.mem_cons.mp h with rfl | hmem
              · exact List.mem_cons_self _ _
              · exact List.mem_cons_of_mem _ (ih qs cs hmem)

theorem zipFeatures_map_row :
    ∀ (rs : List CleanRow) (qs : List ℚ) (cs : List (Option ℚ)),
      qs.length = rs.length → cs.length = rs.length →
      (zipFeatures rs qs cs).map (fun t => t.row) = rs := by
  intro rs
  induction rs with
  | nil => intro qs cs _ _; rfl
  | cons r rs ih =>
      intro qs cs hq hc
      cases qs with
      | nil => cases hq
      | cons q qs =>
          cases cs with
          | nil => cases hc
          | cons c cs =>
              simp only [zipFeatures, List.map_cons]
              rw [ih qs cs (by simpa using hq) (by simpa using hc)]

theorem zipFeatures_map_rolling :
    ∀ (rs : List CleanRow) (qs : List ℚ) (cs : List (Option ℚ)),
      qs.length = rs.length → cs.length = rs.length →
      (zipFeatures rs qs cs).map (fun t => t.rolling_avg_7d) = qs := by
  intro rs
  induction rs with
  | nil =>
      intro qs cs hq _
      cases qs with
      | nil => rfl
      | cons q qs => cases hq
  | cons r rs ih =>
      intro qs cs hq hc
      cases qs with
      | nil => cases hq
      | cons q qs =>
          cases cs with
          | nil => cases hc
          | cons c cs =>
              simp only [zipFeatures, List.map_cons]
              rw [ih qs cs (by simpa using hq) (by simpa using hc)]

theorem rollingStep_length : ∀ (ps w : List ℚ), (rollingStep w ps).length = ps.length := by
  intro ps
  induction ps with
  | nil => intro w; rfl
  | cons p ps ih =>
      intro w
      simp only [rollingStep, List.length_cons, ih]

theorem pctTail_length : ∀ (ps : List ℚ) (prev : ℚ), (pctTail prev ps).length = ps.length := by
  intro ps
  induction ps with
  | nil => intro prev; rfl
  | cons p ps ih =>
      intro prev
      simp only [pctTail, List.length_cons, ih]

theorem pctChangeColumn_length (ps : List ℚ) : (pctChangeColumn ps).length = ps.length := by
  cases ps with
  | nil => rfl
  | cons p ps => simp only [pctChangeColumn, List.length_cons, pctTail_length]

theorem featureGroup_map_row (g : List CleanRow) :
    (featureGroup g).map (fun t => t.row) = g := by
  rw [featureGroup, zipFeatures_map_row]
  · rw [rollingColumn, rollingStep_length, List.length_map]
  · rw [pctChangeColumn_length, List.length_map]

theorem featureGroup_map_rolling (g : List CleanRow) :
    (featureGroup g).map (fun t => t.rolling_avg_7d) =
      rollingColumn (g.map (fun r => r.price_usd)) := by
  rw [featureGroup, zipFeatures_map_rolling]
  · rw [rollingColumn, rollingStep_length, List.length_map]
  · rw [pctChangeColumn_length, List.length_map]

theorem mem_featureGroup_row {g : List CleanRow} {t : TransRow}
    (h : t ∈ featureGroup g) : t.row ∈ g :=
  zipFeatures_row_mem g _ _ h

theorem featureGroup_length (g : List CleanRow) : (featureGroup g).length = g.length := by
  have := featureGroup_map_row g
  calc (featureGroup g).length = ((featureGroup g).map (fun t => t.row)).length := by
        rw [List.length_map]
    _ = g.length := by rw [this]

/-! ### Rolling-mean lemmas -/

theorem take_append_take (A B : List ℚ) (n : ℕ) :
    (A ++ B.take n).take n = (A ++ B).take n := by
  rw [List.take_append_eq_append_take, List.take_append_eq_append_take, List.take_take]
  congr 1
  congr 1
  omega

theorem rollingStep_getElem? :
    ∀ (ps w : List ℚ) (k : ℕ), k < ps.length →
      (rollingStep w ps)[k]? =
        some (windowMean (((ps.take (k + 1)).reverse ++ w).take 7)) := by
  intro ps
  induction ps with
  | nil => intro w k h; cases h
  | cons p ps ih =>
      intro w k h
      cases k with
      | zero =>
          simp only [rollingStep, List.getElem?_cons_zero]
          rfl
      | succ k =>
          have hk : k < ps.length := by
            simpa using h
          simp only [rollingStep, List.getElem?_cons_succ]
          rw [ih ((p :: w).take 7) k hk]
          have hrw : ((p :: ps).take (k + 1 + 1)).reverse ++ w =
              (ps.take (k + 1)).reverse ++ (p :: w) := by
            rw [List.take_succ_cons, List.reverse_cons, List.append_assoc,
              List.singleton_append]
          rw [hrw, take_append_take]

theorem rollingColumn_getElem? (ps : List ℚ) (k : ℕ) (h : k < ps.length) :
    (rollingColumn ps)[k]? = some (trailingMean ps k) := by
  rw [rollingColumn, rollingStep_getElem? ps [] k h, trailingMean, List.append_nil]

theorem rollingColumn_singleton (p : ℚ) : rollingColumn [p] = [p] := by
  rw [rollingColumn, rollingStep]
  simp [rollingStep, windowMean]

/-! ### Grouping lemmas: runsBy on an id-sorted frame -/

theorem runsBy_cons_nil {r : CleanRow} {rs : List CleanRow} (h : runsBy rs = []) :
    runsBy (r :: rs) = [[r]] := by
  rw [runsBy, h]

theorem runsBy_cons_nilhead {r : CleanRow} {rs : List CleanRow}
    {gs : List (List CleanRow)} (h : runsBy rs = [] :: gs) :
    runsBy (r :: rs) = [r] :: gs := by
  rw [runsBy, h]

theorem runsBy_cons_cons {r s : CleanRow} {rs g : List CleanRow}
    {gs : List (List CleanRow)} (h : runsBy rs = (s :: g) :: gs) :
    runsBy (r :: rs) =
      if r.id = s.id then (r :: s :: g) :: gs else [r] :: (s :: g) :: gs := by
  rw [runsBy, h]

theorem runsBy_flatten : ∀ rs : List CleanRow, (runsBy rs).flatten = rs := by
  intro rs
  induction rs with
  | nil => rfl
  | cons r rs ih =>
      cases hrec : runsBy rs with
      | nil =>
          rw [hrec] at ih
          simp only [List.flatten_nil] at ih
          rw [runsBy_cons_nil hrec, ← ih]
          rfl
      | cons g0 gs =>
          cases g0 with
          | nil =>
              rw [hrec] at ih
              simp only [List.flatten_cons, List.nil_append] at ih
              rw [runsBy_cons_nilhead hrec]
              simp only [List.flatten_cons, List.singleton_append, ih]
          | cons s g' =>
              rw [hrec] at ih
              have ih' : s :: (g' ++ gs.flatten) = rs := by simpa using ih
              by_cases hid : r.id = s.id
              · rw [runsBy_cons_cons hrec, if_pos hid]
                simp only [List.flatten_cons, List.cons_append]
                rw [ih']
              · rw [runsBy_cons_cons hrec, if_neg hid]
                simp only [List.flatten_cons, List.singleton_append, List.cons_append]
                rw [ih']
                simp

theorem runsBy_ne_nil : ∀ (rs : List CleanRow), ∀ g ∈ runsBy rs, g ≠ [] := by
  intro rs
  induction rs with
  | nil => intro g hg; cases hg
  | cons r rs ih =>
      intro g hg
      cases hrec : runsBy rs with
      | nil =>
          rw [runsBy_cons_nil hrec] at hg
          rw [List.mem_singleton.mp hg]
          exact List.cons_ne_nil _ _
      | cons g0 gs =>
          cases g0 with
          | nil =>
              rw [runsBy_cons_nilhead hrec] at hg
              rcases List.mem_cons.mp hg with rfl | hmem
              · exact List.cons_ne_nil _ _
              · exact ih g (hrec ▸ List.mem_cons_of_mem _ hmem)
          | cons s g' =>
              rw [runsBy_cons_cons hrec] at hg
              by_cases hid : r.id = s.id
              · rw [if_pos hid] at hg
                rcases List.mem_cons.mp hg with rfl | hmem
                · exact List.cons_ne_nil _ _
                · exact ih g (hrec ▸ List.mem_cons_of_mem _ hmem)
              · rw [if_neg hid] at hg
                rcases List.mem_cons.mp hg with rfl | hmem
                · exact List.cons_ne_nil _ _
                · exact ih g (hrec ▸ hmem)

theorem runsBy_same_id : ∀ (rs : List CleanRow), ∀ g ∈ runsBy rs,
    ∀ a ∈ g, ∀ b ∈ g, a.id = b.id := by
  intro rs
  induction rs with
  | nil => intro g hg; cases hg
  | cons r rs ih =>
      intro g hg a ha b hb
      cases hrec : runsBy rs with
      | nil =>
          rw [runsBy_cons_nil hrec] at hg
          rw [List.mem_singleton.mp hg] at ha hb
          rw [List.mem_singleton.mp ha, List.mem_singleton.mp hb]
      | cons g0 gs =>
          cases g0 with
          | nil =>
              rw [runsBy_cons_nilhead hrec] at hg
              rcases List.mem_cons.mp hg with rfl | hmem
              · rw [List.mem_singleton.mp ha, List.mem_singleton.mp hb]
              · exact ih g (hrec ▸ List.mem_cons_of_mem _ hmem) a ha b hb
          | cons s g' =>
              rw [runsBy_cons_cons hrec] at hg
              by_cases hid : r.id = s.id
              · rw [if_pos hid] at hg
                rcases List.mem_cons.mp hg with rfl | hmem
                · have hconst : ∀ x ∈ r :: s :: g', x.id = s.id := by
                    intro x hx
                    rcases List.mem_cons.mp hx with rfl | hx'
                    · exact hid
                    · exact ih (s :: g') (hrec ▸ List.mem_cons_self _ _) x hx' s
                        (List.mem_cons_self _ _)
                  rw [hconst a ha, hconst b hb]
                · exact ih g (hrec ▸ List.mem_cons_of_mem _ hmem) a ha b hb
              · rw [if_neg hid] at hg
                rcases List.mem_cons.mp hg with rfl | hmem
                · rw [List.mem_singleton.mp ha, List.mem_singleton.mp hb]
                · exact ih g (hrec ▸ hmem) a ha b hb

theorem rowLe_id_cases {a b : CleanRow} (h : rowLe a b) :
    strLt a.id b.id = true ∨ a.id = b.id := by
  rcases h with h | ⟨h, _⟩
  · exact Or.inl h
  · exact Or.inr h

theorem runsBy_pairwise_ne : ∀ (rs : List CleanRow), List.Pairwise rowLe rs →
    (runsBy rs).Pairwise (fun g g' => ∀ a ∈ g, ∀ b ∈ g', a.id ≠ b.id) := by
  intro rs
  induction rs with
  | nil => intro _; exact List.Pairwise.nil
  | cons r rs ih =>
      intro hp
      obtain ⟨hr, hp'⟩ := List.pairwise_cons.mp hp
      have ihp := ih hp'
      cases hrec : runsBy rs with
      | nil =>
          rw [runsBy_cons_nil hrec]
          exact List.pairwise_singleton _ _
      | cons g0 gs =>
          cases g0 with
          | nil =>
              exact absurd rfl (runsBy_ne_nil rs [] (hrec ▸ List.mem_cons_self _ _))
          | cons s g' =>
              rw [hrec] at ihp
              obtain ⟨hhead, htail⟩ := List.pairwise_cons.mp ihp
              have hflat : rs = (s :: g') ++ gs.flatten := by
                have h0 := runsBy_flatten rs
                rw [hrec] at h0
                simpa using h0.symm
              by_cases hid : r.id = s.id
              · rw [runsBy_cons_cons hrec, if_pos hid]
                refine List.pairwise_cons.mpr ⟨?_, htail⟩
                intro g2 hg2 a ha b hb
                rcases List.mem_cons.mp ha with rfl | ha'
                · rw [hid]
                  exact hhead g2 hg2 s (List.mem_cons_self _ _) b hb
                · exact hhead g2 hg2 a ha' b hb
              · rw [runsBy_cons_cons hrec, if_neg hid]
                refine List.pairwise_cons.mpr ⟨?_, ihp⟩
                intro g2 hg2 a ha b hb
                rw [List.mem_singleton.mp ha]
                rcases List.mem_cons.mp hg2 with rfl | hg3
                · have hbs : b.id = s.id :=
                    runsBy_same_id rs (s :: g') (hrec ▸ List.mem_cons_self _ _) b hb s
                      (List.mem_cons_self _ _)
                  rw [hbs]
                  exact hid
                · have hbmem : b ∈ gs.flatten := List.mem_flatten.mpr ⟨g2, hg3, hb⟩
                  have hrs : rowLe r s := hr s (by
                    rw [hflat]
                    exact List.mem_append_left _ (List.mem_cons_self _ _))
                  have hrltS : strLt r.id s.id = true := by
                    rcases hrs with h | ⟨h, _⟩
                    · exact h
                    · exact absurd h hid
                  have hsb : rowLe s b := by
                    have hp2 : List.Pairwise rowLe ((s :: g') ++ gs.flatten) :=
                      hflat ▸ hp'
                    rw [List.cons_append] at hp2
                    exact (List.pairwise_cons.mp hp2).1 b (List.mem_append_right _ hbmem)
                  have hrb : strLt r.id b.id = true := by
                    rcases rowLe_id_cases hsb with h | h
                    · exact strLt_trans hrltS h
                    · exact h ▸ hrltS
                  intro he
                  rw [he, strLt_irrefl] at hrb
                  cases hrb

/-! ### Collapsing the per-group features onto one id -/

theorem filter_featureGroup_of_const {g : List CleanRow} {i : String}
    (hconst : ∀ a ∈ g, ∀ b ∈ g, a.id = b.id) :
    (featureGroup g).filter (fun t => t.row.id = i) =
      featureGroup (g.filter (fun r => r.id = i)) := by
  by_cases hall : ∀ a ∈ g, a.id = i
  · have h1 : g.filter (fun r => r.id = i) = g :=
      List.filter_eq_self.mpr (fun a ha => decide_eq_true (hall a ha))
    have h2 : (featureGroup g).filter (fun t => t.row.id = i) = featureGroup g :=
      List.filter_eq_self.mpr
        (fun t ht => decide_eq_true (hall t.row (mem_featureGroup_row ht)))
    rw [h1, h2]
  · push_neg at hall
    obtain ⟨a0, ha0, hne⟩ := hall
    have hnone : ∀ a ∈ g, a.id ≠ i := by
      intro a ha h
      exact hne ((hconst a0 ha0 a ha).trans h)
    have h1 : g.filter (fun r => r.id = i) = [] :=
      List.filter_eq_nil_iff.mpr (fun a ha hc => hnone a ha (of_decide_eq_true hc))
    have h2 : (featureGroup g).filter (fun t => t.row.id = i) = [] :=
      List.filter_eq_nil_iff.mpr
        (fun t ht hc => hnone t.row (mem_featureGroup_row ht) (of_decide_eq_true hc))
    rw [h1, h2]
    rfl

theorem featureGroup_flatten :
    ∀ L : List (List CleanRow),
      L.Pairwise (fun g g' => g = [] ∨ g' = []) →
      (L.map featureGroup).flatten = featureGroup L.flatten := by
  intro L
  induction L with
  | nil => intro _; rfl
  | cons g L2 ih =>
      intro h
      obtain ⟨h1, h2⟩ := List.pairwise_cons.mp h
      by_cases hg : g = []
      · subst hg
        simp only [List.map_cons, List.flatten_cons, List.nil_append]
        have hnil : featureGroup [] = [] := rfl
        rw [hnil, List.nil_append]
        exact ih h2
      · have hL2 : ∀ g2 ∈ L2, g2 = [] := fun g2 hg2 => (h1 g2 hg2).resolve_left hg
        have hfl : L2.flatten = [] := List.flatten_eq_nil_iff.mpr hL2
        have hmapfl : (L2.map featureGroup).flatten = [] := by
          refine List.flatten_eq_nil_iff.mpr ?_
          intro l hl
          rw [List.mem_map] at hl
          obtain ⟨g2, hg2, rfl⟩ := hl
          rw [hL2 g2 hg2]
          rfl
        simp only [List.map_cons, List.flatten_cons, hmapfl, hfl, List.append_nil]

theorem observationsOf_eq (raw : List RawEntry) (i : String) :
    observationsOf raw i =
      featureGroup ((sortRows (cleanRows raw)).filter (fun r => r.id = i)) := by
  have hsorted : List.Pairwise rowLe (sortRows (cleanRows raw)) :=
    @List.sorted_insertionSort _ rowLe _ ⟨rowLe_total⟩ ⟨rowLe_trans⟩ (cleanRows raw)
  have hdisj := runsBy_pairwise_ne (sortRows (cleanRows raw)) hsorted
  rw [observationsOf, transform_crypto_data, List.filter_flatten, List.map_map]
  have hper : ∀ g ∈ runsBy (sortRows (cleanRows raw)),
      (List.filter (fun t => t.row.id = i) ∘ featureGroup) g =
        featureGroup (g.filter (fun r => r.id = i)) := by
    intro g hg
    exact filter_featureGroup_of_const (runsBy_same_id _ g hg)
  rw [List.map_congr_left hper]
  have hmm : (runsBy (sortRows (cleanRows raw))).map
      (fun g => featureGroup (g.filter (fun r => r.id = i))) =
      ((runsBy (sortRows (cleanRows raw))).map
        (fun g => g.filter (fun r => r.id = i))).map featureGroup := by
    rw [List.map_map]
    rfl
  rw [hmm]
  have hpair : ((runsBy (sortRows (cleanRows raw))).map
      (fun g => g.filter (fun r => r.id = i))).Pairwise
        (fun g g' => g = [] ∨ g' = []) := by
    rw [List.pairwise_map]
    refine List.Pairwise.imp_of_mem ?_ hdisj
    intro g g' hg hg' hne
    by_contra hcon
    push_neg at hcon
    obtain ⟨hne1, hne2⟩ := hcon
    obtain ⟨a, ha⟩ := List.exists_mem_of_ne_nil _ hne1
    obtain ⟨b, hb⟩ := List.exists_mem_of_ne_nil _ hne2
    rw [List.mem_filter] at ha hb
    exact hne a ha.1 b hb.1
      ((of_decide_eq_true ha.2).trans (of_decide_eq_true hb.2).symm)
  rw [featureGroup_flatten _ hpair, ← List.filter_flatten, runsBy_flatten]

/-- C5: for every `id`, the observations of that id in the transform
output are ordered by `last_updated` ascending, and `rolling_avg_7d` at
the `k`-th observation is the trailing mean of `price_usd` over the
up-to-7 most recent of its first `k + 1` observations; in particular an
id with exactly one observation carries its own `price_usd` as its
rolling average. -/
theorem transform_rolling_avg (raw : List RawEntry) (i : String) :
    (∀ k, k < (observationsOf raw i).length →
      ((observationsOf raw i).map (fun t => t.rolling_avg_7d))[k]? =
        some (trailingMean
          ((observationsOf raw i).map (fun t => t.row.price_usd)) k)) ∧
    List.Chain' (fun a b => luLe a.row.last_updated b.row.last_updated)
      (observationsOf raw i) ∧
    (∀ t ∈ observationsOf raw i, t.row.id = i) ∧
    ((observationsOf raw i).length = 1 →
      (observationsOf raw i).map (fun t => t.rolling_avg_7d) =
        (observationsOf raw i).map (fun t => t.row.price_usd)) := by
  have heq := observationsOf_eq raw i
  have hsorted : List.Pairwise rowLe (sortRows (cleanRows raw)) :=
    @List.sorted_insertionSort _ rowLe _ ⟨rowLe_total⟩ ⟨rowLe_trans⟩ (cleanRows raw)
  have hmaprow : (observationsOf raw i).map (fun t => t.row) =
      (sortRows (cleanRows raw)).filter (fun r => r.id = i) := by
    rw [heq, featureGroup_map_row]
  have hmaproll : (observationsOf raw i).map (fun t => t.rolling_avg_7d) =
      rollingColumn (((sortRows (cleanRows raw)).filter (fun r => r.id = i)).map
        (fun r => r.price_usd)) := by
    rw [heq, featureGroup_map_rolling]
  have hmapprice : (observationsOf raw i).map (fun t => t.row.price_usd) =
      ((sortRows (cleanRows raw)).filter (fun r => r.id = i)).map
        (fun r => r.price_usd) := by
    rw [← hmaprow, List.map_map]
    rfl
  have hlen : (observationsOf raw i).length =
      ((sortRows (cleanRows raw)).filter (fun r => r.id = i)).length := by
    rw [heq, featureGroup_length]
  have hsub : List.Pairwise rowLe
      ((sortRows (cleanRows raw)).filter (fun r => r.id = i)) :=
    List.Pairwise.sublist (List.filter_sublist _) hsorted
  have hids : ∀ r ∈ (sortRows (cleanRows raw)).filter (fun r => r.id = i),
      r.id = i := fun r hr => of_decide_eq_true (List.mem_filter.mp hr).2
  refine ⟨?_, ?_, ?_, ?_⟩
  · intro k hk
    rw [hmaproll, hmapprice]
    refine rollingColumn_getElem? _ k ?_
    rw [List.length_map, ← hlen]
    exact hk
  · have hlu : List.Pairwise (fun a b : CleanRow => luLe a.last_updated b.last_updated)
        ((sortRows (cleanRows raw)).filter (fun r => r.id = i)) := by
      refine List.Pairwise.imp_of_mem ?_ hsub
      intro a b ha hb hab
      rcases hab with h | ⟨_, h⟩
      · have he : a.id = b.id := (hids a ha).trans (hids b hb).symm
        rw [he, strLt_irrefl] at h
        cases h
      · exact h
    have hchain := hlu.chain'
    rw [← hmaprow] at hchain
    exact (List.chain'_map (fun t : TransRow => t.row)).mp hchain
  · intro t ht
    rw [heq] at ht
    exact hids t.row (mem_featureGroup_row ht)
  · intro hone
    rw [hlen] at hone
    obtain ⟨r0, hr0⟩ := List.length_eq_one.mp hone
    rw [hmaproll, hmapprice, hr0]
    simp only [List.map_cons, List.map_nil]
    exact rollingColumn_singleton _

/-- C5 witness: the rolling-average theorem evaluated on a raw snapshot
with two observations of the same asset, at the second observation. -/
theorem transform_rolling_avg_witness :
    1 < (observationsOf demoRaw "bitcoin").length ∧
    ((observationsOf demoRaw "bitcoin").map (fun t => t.rolling_avg_7d))[1]? =
      some (trailingMean
        ((observationsOf demoRaw "bitcoin").map (fun t => t.row.price_usd)) 1) :=
  ⟨by decide, (transform_rolling_avg demoRaw "bitcoin").1 1 (by decide)⟩

end CryptoETL
